import Mathlib

/-!
# Verification of the consent-section transform of beiwe-backend

This file gives a shallow embedding of `unflatten_consent_sections`
(`pages/system_admin_pages.py`) and settles the specification claims
about it.

Python strings are modelled as `List Char` (`Str`); Python dicts are
modelled as association lists with unique keys, looked up by `dlookup`.
The input flat mapping is given as the list of its entries in iteration
order.  The function's `print` statement is modelled by threading an
explicit stdout log (a list of printed triples) through the loop.
-/

namespace BeiweConsent

/-- A Python string, modelled as its list of characters. -/
abbrev Str := List Char

/-- One entry (key, value) of the flat `consent_sections_dict`. -/
abbrev Entry := Str × Str

/-- An inner Python dict: `content_type` to content. -/
abbrev Inner := List (Str × Str)

/-- The nested result: `label` to inner dict. -/
abbrev Nested := List (Str × Inner)

/-- Model of Python `key.split(".")` for a one-character separator:
`[] ↦ [""]`, and each `'.'` starts a new segment. -/
def splitDots : Str → List Str
  | [] => [[]]
  | c :: rest =>
    match splitDots rest with
    | [] => [[]]
    | seg :: segs => if c = '.' then [] :: seg :: segs else (c :: seg) :: segs

/-- Python dict lookup `m.get(k)` on the association-list model. -/
def dlookup {α : Type} : List (Str × α) → Str → Option α
  | [], _ => none
  | (k0, v0) :: rest, k => if k0 = k then some v0 else dlookup rest k

/-- Python dict assignment `m[k] = v` on the association-list model:
replace the binding if the key is present, otherwise append it. -/
def dictSet : Inner → Str → Str → Inner
  | [], k, v => [(k, v)]
  | (k0, v0) :: rest, k, v =>
    if k0 = k then (k0, v) :: rest else (k0, v0) :: dictSet rest k v

/-- The `defaultdict(dict)` assignment
`refactored_consent_sections[label][content_type] = content`:
auto-vivify the inner dict for `label` if absent, then set `content_type`. -/
def nestedSet : Nested → Str → Str → Str → Nested
  | [], label, ct, v => [(label, [(ct, v)])]
  | (l0, inner) :: rest, label, ct, v =>
    if l0 = label then (l0, dictSet inner ct v) :: rest
    else (l0, inner) :: nestedSet rest label ct v

/-- The loop of `unflatten_consent_sections`, one iteration per entry of
`consent_sections_dict.iteritems()`.  Each iteration splits the key on
`"."`; a split into exactly three segments binds `_, label, content_type`,
prints them (modelled by appending the triple to the stdout log `out`) and
stores the content; any other number of segments raises `ValueError` at the
tuple unpacking (modelled as `Except.error` carrying the offending key),
abandoning the accumulator. -/
def unflatten_run :
    List Entry → Nested → List (Str × Str × Str) →
      Except Str Nested × List (Str × Str × Str)
  | [], acc, out => (Except.ok acc, out)
  | (key, content) :: rest, acc, out =>
    match splitDots key with
    | [seg0, label, ct] =>
        unflatten_run rest (nestedSet acc label ct content) (out ++ [(seg0, label, ct)])
    | _ => (Except.error key, out)

/-- `unflatten_consent_sections(consent_sections_dict)`: run the loop from
the empty accumulator and empty stdout, returning the nested result (the
final `dict(refactored_consent_sections)`). -/
def unflatten_consent_sections (d : List Entry) : Except Str Nested :=
  (unflatten_run d [] []).1

/-! ## Specification-side helper definitions -/

/-- The (label, content_type) pair derived from a key, when the key has
exactly three dot-separated segments. -/
def keyLabelCT (k : Str) : Option (Str × Str) :=
  match splitDots k with
  | [_, label, ct] => some (label, ct)
  | _ => none

/-- A flat mapping is well formed when every key splits into exactly three
segments. -/
def wellFormedB (d : List Entry) : Bool :=
  d.all fun e => (keyLabelCT e.1).isSome

/-- The value of the last entry of `d` whose key derives the pair
`(label, ct)`, if any. -/
def lastVal (d : List Entry) (label ct : Str) : Option Str :=
  match d with
  | [] => none
  | (k, v) :: rest =>
    match lastVal rest label ct with
    | some w => some w
    | none => if keyLabelCT k = some (label, ct) then some v else none

/-- Two-level lookup in the nested result. -/
def lookupNested (n : Nested) (label ct : Str) : Option Str :=
  match dlookup n label with
  | none => none
  | some inner => dlookup inner ct

/-- Whether some key of `d` derives the label `label`. -/
def hasLabel (d : List Entry) (label : Str) : Bool :=
  d.any fun e =>
    match keyLabelCT e.1 with
    | some (l, _) => l = label
    | none => false

/-- The list of (label, content_type) pairs derived from the keys of `d`,
in order. -/
def derivedPairs (d : List Entry) : List (Str × Str) :=
  d.filterMap fun e => keyLabelCT e.1

/-- A string with no `'.'` character, hence a valid single key segment. -/
def dotFree (s : Str) : Bool := s.all fun c => c != '.'

/-- Left-biased choice on options (Python `a if a is not None else b`),
used to state lookup properties. -/
def orO {α : Type} : Option α → Option α → Option α
  | some w, _ => some w
  | none, b => b

/-- The triples printed by the loop (one `print _, label, content_type`
per successfully split key, stopping at the first malformed key). -/
def printedLog : List Entry → List (Str × Str × Str)
  | [] => []
  | (k, _) :: rest =>
    match splitDots k with
    | [a, b, c] => (a, b, c) :: printedLog rest
    | _ => []

/-- Two flat entries that differ at most in the first segment of their
keys: equal values, both keys split into exactly three segments, and the
last two segments (label and content type) agree. -/
def sameShape (e1 e2 : Entry) : Prop :=
  e1.2 = e2.2 ∧ (splitDots e1.1).length = 3 ∧
    (splitDots e1.1).tail = (splitDots e2.1).tail ∧ (splitDots e2.1).length = 3

instance (e1 e2 : Entry) : Decidable (sameShape e1 e2) := by
  unfold sameShape; infer_instance

/-- Modelled from the spec: the inverse operation `nested_to_flat` is
described in the specification ("for every (label, content_type, value)
triple in the nested structure, emit a flat key `prefix.label.content_type`
mapped to value") but is not present in the source excerpt. -/
def nested_to_flat (n : Nested) (p : Str) : List Entry :=
  n.flatMap fun li =>
    li.2.map fun cv => (p ++ '.' :: li.1 ++ '.' :: cv.1, cv.2)

/-- A well-formed nested mapping: distinct labels, every segment dot-free,
every inner dict nonempty with distinct content types.  (An empty inner
dict is not representable in the flat form, and a `'.'` inside a segment
would change the key's segmentation.) -/
def NestedWF (n : Nested) : Prop :=
  (n.map Prod.fst).Nodup ∧
    ∀ li ∈ n, dotFree li.1 = true ∧ li.2 ≠ [] ∧
      (li.2.map Prod.fst).Nodup ∧ ∀ cv ∈ li.2, dotFree cv.1 = true

instance : DecidablePred NestedWF := fun n => by
  unfold NestedWF; infer_instance

/-! ## Lemmas about `splitDots` -/

theorem splitDots_ne_nil (s : Str) : splitDots s ≠ [] := by
  cases s with
  | nil => simp [splitDots]
  | cons c rest =>
    simp only [splitDots]
    cases h : splitDots rest with
    | nil => simp
    | cons seg segs => by_cases hc : c = '.' <;> simp [hc]

theorem dotFree_cons {c : Char} {a : Str} (h : dotFree (c :: a) = true) :
    c ≠ '.' ∧ dotFree a = true := by
  simpa [dotFree] using h

theorem splitDots_append (a s : Str) (ha : dotFree a = true) (seg : Str)
    (segs : List Str) (hs : splitDots s = seg :: segs) :
    splitDots (a ++ s) = (a ++ seg) :: segs := by
  induction a with
  | nil => simpa using hs
  | cons c a ih =>
    obtain ⟨hc, ha'⟩ := dotFree_cons ha
    have ih' := ih ha'
    rw [List.cons_append]
    simp only [splitDots]
    rw [ih']
    simp [hc]

theorem splitDots_dotFree (s : Str) (h : dotFree s = true) :
    splitDots s = [s] := by
  have h0 : splitDots ([] : Str) = [] :: [] := by simp [splitDots]
  have := splitDots_append s [] h [] [] h0
  simpa using this

theorem splitDots_three (p l c : Str) (hp : dotFree p = true)
    (hl : dotFree l = true) (hc : dotFree c = true) :
    splitDots (p ++ '.' :: l ++ '.' :: c) = [p, l, c] := by
  have h1 : splitDots ('.' :: c) = [] :: [c] := by
    simp [splitDots, splitDots_dotFree c hc]
  have h2 : splitDots (l ++ '.' :: c) = l :: [c] := by
    have := splitDots_append l ('.' :: c) hl [] [c] h1
    simpa using this
  have h3 : splitDots ('.' :: l ++ '.' :: c) = [] :: l :: [c] := by
    rw [List.cons_append]
    simp [splitDots, h2]
  have := splitDots_append p ('.' :: l ++ '.' :: c) hp [] (l :: [c]) h3
  simpa using this

theorem splitDots_length (s : Str) :
    (splitDots s).length = s.count '.' + 1 := by
  induction s with
  | nil => simp [splitDots]
  | cons c rest ih =>
    simp only [splitDots]
    cases h : splitDots rest with
    | nil => exact absurd h (splitDots_ne_nil rest)
    | cons seg segs =>
      rw [h] at ih
      by_cases hc : c = '.' <;>
        simp_all [List.count_cons]

theorem list_len3 {α : Type} {xs : List α} (h : xs.length = 3) :
    ∃ a b c, xs = [a, b, c] := by
  match xs, h with
  | [a, b, c], _ => exact ⟨a, b, c, rfl⟩

/-! ## Lemmas about the dictionary model -/

theorem orO_none_right {α : Type} (a : Option α) : orO a none = a := by
  cases a <;> rfl

theorem dlookup_append {α : Type} (m1 m2 : List (Str × α)) (k : Str) :
    dlookup (m1 ++ m2) k = orO (dlookup m1 k) (dlookup m2 k) := by
  induction m1 with
  | nil => rfl
  | cons e rest ih =>
    obtain ⟨k0, v0⟩ := e
    by_cases h : k0 = k <;> simp [dlookup, h, ih, orO]

theorem dlookup_dictSet (m : Inner) (k v k' : Str) :
    dlookup (dictSet m k v) k' = if k = k' then some v else dlookup m k' := by
  induction m with
  | nil => simp [dictSet, dlookup]
  | cons e rest ih =>
    obtain ⟨k0, v0⟩ := e
    by_cases h0 : k0 = k
    · subst h0
      by_cases h1 : k0 = k' <;> simp [dictSet, dlookup, h1]
    · have hL : dictSet ((k0, v0) :: rest) k v = (k0, v0) :: dictSet rest k v := by
        simp [dictSet, h0]
      rw [hL]
      by_cases h1 : k0 = k'
      · subst h1
        have hk : ¬ k = k0 := fun hh => h0 hh.symm
        simp [dlookup, hk]
      · simp [dlookup, h1, ih]

theorem dictSet_fresh (m : Inner) (k v : Str) (h : dlookup m k = none) :
    dictSet m k v = m ++ [(k, v)] := by
  induction m with
  | nil => rfl
  | cons e rest ih =>
    obtain ⟨k0, v0⟩ := e
    by_cases h0 : k0 = k
    · simp [dlookup, h0] at h
    · simp only [dlookup, if_neg h0] at h
      simp [dictSet, h0, ih h]

theorem dlookup_nestedSet_ne (n : Nested) (l0 c0 v l : Str) (h : l0 ≠ l) :
    dlookup (nestedSet n l0 c0 v) l = dlookup n l := by
  induction n with
  | nil => simp [nestedSet, dlookup, h]
  | cons e rest ih =>
    obtain ⟨l1, inner⟩ := e
    by_cases h1 : l1 = l0
    · subst h1
      have h2 : ¬ l1 = l := h
      simp [nestedSet, dlookup, h2]
    · by_cases h2 : l1 = l
      · subst h2
        simp [nestedSet, dlookup, h1]
      · simp [nestedSet, dlookup, h1, h2, ih]

theorem nestedSet_fresh (n : Nested) (l c v : Str) (h : dlookup n l = none) :
    nestedSet n l c v = n ++ [(l, [(c, v)])] := by
  induction n with
  | nil => rfl
  | cons e rest ih =>
    obtain ⟨l1, inner⟩ := e
    by_cases h1 : l1 = l
    · simp [dlookup, h1] at h
    · simp only [dlookup, if_neg h1] at h
      simp [nestedSet, h1, ih h]

theorem nestedSet_last (pre : Nested) (l c v : Str) (cur : Inner)
    (h : dlookup pre l = none) :
    nestedSet (pre ++ [(l, cur)]) l c v = pre ++ [(l, dictSet cur c v)] := by
  induction pre with
  | nil => simp [nestedSet]
  | cons e rest ih =>
    obtain ⟨l1, inner⟩ := e
    by_cases h1 : l1 = l
    · simp [dlookup, h1] at h
    · simp only [dlookup, if_neg h1] at h
      simp [nestedSet, h1, ih h]

theorem lookupNested_cons (l1 : Str) (inner : Inner) (m : Nested) (l c : Str) :
    lookupNested ((l1, inner) :: m) l c =
      if l1 = l then dlookup inner c else lookupNested m l c := by
  by_cases h : l1 = l <;> simp [lookupNested, dlookup, h]

theorem lookupNested_nestedSet (n : Nested) (l0 c0 v l c : Str) :
    lookupNested (nestedSet n l0 c0 v) l c =
      if l0 = l ∧ c0 = c then some v else lookupNested n l c := by
  induction n with
  | nil =>
    by_cases h1 : l0 = l
    · subst h1
      by_cases h2 : c0 = c <;> simp [nestedSet, lookupNested, dlookup, h2]
    · simp [nestedSet, lookupNested, dlookup, h1]
  | cons e rest ih =>
    obtain ⟨l1, inner⟩ := e
    by_cases h1 : l1 = l0
    · subst h1
      have hset : nestedSet ((l1, inner) :: rest) l1 c0 v =
          (l1, dictSet inner c0 v) :: rest := by simp [nestedSet]
      rw [hset, lookupNested_cons, lookupNested_cons]
      by_cases h2 : l1 = l
      · subst h2
        simp [dlookup_dictSet]
      · simp [h2]
    · have hset : nestedSet ((l1, inner) :: rest) l0 c0 v =
          (l1, inner) :: nestedSet rest l0 c0 v := by simp [nestedSet, h1]
      rw [hset, lookupNested_cons, lookupNested_cons]
      by_cases h2 : l1 = l
      · subst h2
        have h3 : ¬ (l0 = l1 ∧ c0 = c) := fun hand => h1 hand.1.symm
        simp [h3]
      · simp [h2, ih]

theorem isSome_dlookup_nestedSet (n : Nested) (l0 c0 v l : Str) :
    (dlookup (nestedSet n l0 c0 v) l).isSome = true ↔
      (l0 = l ∨ (dlookup n l).isSome = true) := by
  by_cases h1 : l0 = l
  · subst h1
    constructor
    · intro _; exact Or.inl rfl
    · intro _
      induction n with
      | nil => simp [nestedSet, dlookup]
      | cons e rest ih =>
        obtain ⟨l1, inner⟩ := e
        by_cases h2 : l1 = l0 <;> simp [nestedSet, dlookup, h2, ih]
  · rw [dlookup_nestedSet_ne n l0 c0 v l h1]
    simp [h1]

/-! ## Structure of `unflatten_run` -/

theorem keyLabelCT_some_iff (k : Str) (lab c : Str) :
    keyLabelCT k = some (lab, c) ↔ ∃ a, splitDots k = [a, lab, c] := by
  constructor
  · intro h
    rcases hs : splitDots k with _ | ⟨a, _ | ⟨b, _ | ⟨d, _ | ⟨e, tl⟩⟩⟩⟩ <;>
      simp [keyLabelCT, hs] at h
    exact ⟨a, by simp [hs, h.1, h.2]⟩
  · rintro ⟨a, hs⟩
    simp [keyLabelCT, hs]

theorem keyLabelCT_isSome (k : Str) (h : (keyLabelCT k).isSome = true) :
    ∃ a lab c, splitDots k = [a, lab, c] := by
  rcases ho : keyLabelCT k with _ | ⟨lab, c⟩
  · rw [ho] at h; simp at h
  · obtain ⟨a, hs⟩ := (keyLabelCT_some_iff k lab c).1 ho
    exact ⟨a, lab, c, hs⟩

theorem unflatten_run_cons_some (k v a lab c : Str) (rest : List Entry)
    (acc : Nested) (out : List (Str × Str × Str))
    (h : splitDots k = [a, lab, c]) :
    unflatten_run ((k, v) :: rest) acc out =
      unflatten_run rest (nestedSet acc lab c v) (out ++ [(a, lab, c)]) := by
  simp only [unflatten_run]
  rw [h]

theorem unflatten_run_cons_none (k v : Str) (rest : List Entry)
    (acc : Nested) (out : List (Str × Str × Str))
    (h : keyLabelCT k = none) :
    unflatten_run ((k, v) :: rest) acc out = (Except.error k, out) := by
  simp only [unflatten_run]
  rcases hs : splitDots k with _ | ⟨a, _ | ⟨b, _ | ⟨d, _ | ⟨e, tl⟩⟩⟩⟩ <;>
    simp [keyLabelCT, hs] at h ⊢

theorem unflatten_run_out_split (es : List Entry) :
    ∀ acc out, unflatten_run es acc out =
      ((unflatten_run es acc []).1, out ++ printedLog es) := by
  induction es with
  | nil => intro acc out; simp [unflatten_run, printedLog]
  | cons e rest ih =>
    intro acc out
    obtain ⟨k, v⟩ := e
    rcases hs : splitDots k with _ | ⟨a, _ | ⟨b, _ | ⟨d, _ | ⟨e0, tl⟩⟩⟩⟩ <;>
      simp only [unflatten_run, printedLog, hs]
    · simp
    · simp
    · simp
    · rw [ih (nestedSet acc b d v) (out ++ [(a, b, d)]),
        ih (nestedSet acc b d v) ([] ++ [(a, b, d)]),
        ih (nestedSet acc b d v) []]
      simp
    · simp

theorem unflatten_run_fst_out (es : List Entry) (acc : Nested)
    (out out' : List (Str × Str × Str)) :
    (unflatten_run es acc out).1 = (unflatten_run es acc out').1 := by
  rw [unflatten_run_out_split es acc out, unflatten_run_out_split es acc out']

theorem unflatten_run_append (xs ys : List Entry) :
    ∀ acc out, unflatten_run (xs ++ ys) acc out =
      match unflatten_run xs acc out with
      | (Except.ok a, o) => unflatten_run ys a o
      | (Except.error e, o) => (Except.error e, o) := by
  induction xs with
  | nil => intro acc out; rfl
  | cons e rest ih =>
    intro acc out
    obtain ⟨k, v⟩ := e
    rcases hs : splitDots k with _ | ⟨a, _ | ⟨b, _ | ⟨d, _ | ⟨e0, tl⟩⟩⟩⟩ <;>
      simp only [List.cons_append, unflatten_run, hs] <;>
      try rfl
    exact ih (nestedSet acc b d v) (out ++ [(a, b, d)])

/-! ## `lastVal` and the main invariant over well-formed input -/

theorem lastVal_append (xs ys : List Entry) (lab c : Str) :
    lastVal (xs ++ ys) lab c = orO (lastVal ys lab c) (lastVal xs lab c) := by
  induction xs with
  | nil => simp [lastVal, orO_none_right]
  | cons e rest ih =>
    obtain ⟨k, v⟩ := e
    have hL : lastVal (((k, v) :: rest) ++ ys) lab c =
        match lastVal (rest ++ ys) lab c with
        | some w => some w
        | none => if keyLabelCT k = some (lab, c) then some v else none := rfl
    have hR : lastVal ((k, v) :: rest) lab c =
        match lastVal rest lab c with
        | some w => some w
        | none => if keyLabelCT k = some (lab, c) then some v else none := rfl
    rw [hL, hR, ih]
    cases hy : lastVal ys lab c <;> cases hr : lastVal rest lab c <;> simp [orO]

theorem lastVal_isSome_of_mem (es : List Entry) (k v lab c : Str)
    (hm : (k, v) ∈ es) (hk : keyLabelCT k = some (lab, c)) :
    (lastVal es lab c).isSome = true := by
  induction es with
  | nil => simp at hm
  | cons e rest ih =>
    obtain ⟨k0, v0⟩ := e
    rcases List.mem_cons.1 hm with he | hm'
    · obtain ⟨hk0, hv0⟩ := Prod.mk.injEq .. ▸ he
      simp only [lastVal]
      cases hl : lastVal rest lab c with
      | some w => simp
      | none => simp [Prod.ext_iff] at he; rw [← he.1, hk]; simp
    · have := ih hm'
      simp only [lastVal]
      cases hl : lastVal rest lab c with
      | some w => simp
      | none => rw [hl] at this; simp at this

theorem lastVal_none_of_not_mem (es : List Entry) (lab c : Str)
    (h : (lab, c) ∉ derivedPairs es) : lastVal es lab c = none := by
  induction es with
  | nil => rfl
  | cons e rest ih =>
    obtain ⟨k, v⟩ := e
    have hrest : (lab, c) ∉ derivedPairs rest := by
      intro hmem
      exact h (by simp [derivedPairs, List.filterMap_cons] at *
                  rcases hk : keyLabelCT k with _ | pr <;> simp [hk] <;> tauto)
    have hk : keyLabelCT k ≠ some (lab, c) := by
      intro hk
      exact h (by simp [derivedPairs, List.filterMap_cons, hk])
    simp [lastVal, ih hrest, hk]

theorem derivedPairs_cons_some (k v lab c : Str) (rest : List Entry)
    (hk : keyLabelCT k = some (lab, c)) :
    derivedPairs ((k, v) :: rest) = (lab, c) :: derivedPairs rest := by
  simp [derivedPairs, List.filterMap_cons, hk]

theorem lastVal_eq_of_nodup (es : List Entry) (k v lab c : Str)
    (hnd : (derivedPairs es).Nodup) (hm : (k, v) ∈ es)
    (hk : keyLabelCT k = some (lab, c)) :
    lastVal es lab c = some v := by
  induction es with
  | nil => simp at hm
  | cons e rest ih =>
    obtain ⟨k0, v0⟩ := e
    rcases List.mem_cons.1 hm with he | hm'
    · simp [Prod.ext_iff] at he
      obtain ⟨hk0, hv0⟩ := he
      subst hk0; subst hv0
      rw [derivedPairs_cons_some k v lab c rest hk] at hnd
      have hnone : lastVal rest lab c = none :=
        lastVal_none_of_not_mem rest lab c (List.nodup_cons.1 hnd).1
      simp [lastVal, hnone, hk]
    · have hnd' : (derivedPairs rest).Nodup := by
        rcases hk0 : keyLabelCT k0 with _ | pr
        · simpa [derivedPairs, List.filterMap_cons, hk0] using hnd
        · rw [derivedPairs_cons_some k0 v0 pr.1 pr.2 rest (by simp [hk0])] at hnd
          exact (List.nodup_cons.1 hnd).2
      simp [lastVal, ih hnd' hm']

theorem unflatten_run_wf (es : List Entry) (h : wellFormedB es = true) :
    ∀ acc out, ∃ N out2, unflatten_run es acc out = (Except.ok N, out2) ∧
      (∀ lab c, lookupNested N lab c = orO (lastVal es lab c) (lookupNested acc lab c)) ∧
      (∀ lab, (dlookup N lab).isSome = true ↔
        (hasLabel es lab = true ∨ (dlookup acc lab).isSome = true)) := by
  induction es with
  | nil =>
    intro acc out
    exact ⟨acc, out, rfl, fun lab c => rfl, fun lab => by simp [hasLabel]⟩
  | cons e rest ih =>
    intro acc out
    obtain ⟨k, v⟩ := e
    have hhd : (keyLabelCT k).isSome = true := by
      simp [wellFormedB] at h; exact h.1
    have hrest : wellFormedB rest = true := by
      simp [wellFormedB] at h ⊢; exact h.2
    obtain ⟨a, lab0, c0, hs⟩ := keyLabelCT_isSome k hhd
    have hk : keyLabelCT k = some (lab0, c0) := (keyLabelCT_some_iff k lab0 c0).2 ⟨a, hs⟩
    rw [unflatten_run_cons_some k v a lab0 c0 rest acc out hs]
    obtain ⟨N, out2, hrun, hval, hlab⟩ :=
      ih hrest (nestedSet acc lab0 c0 v) (out ++ [(a, lab0, c0)])
    refine ⟨N, out2, hrun, ?_, ?_⟩
    · intro lab c
      rw [hval lab c, lookupNested_nestedSet]
      simp only [lastVal, hk]
      cases hl : lastVal rest lab c with
      | some w => simp [orO]
      | none =>
        by_cases hpair : lab0 = lab ∧ c0 = c
        · simp [orO, hpair, Prod.ext_iff, hpair.1, hpair.2]
        · have : ¬ some (lab0, c0) = some (lab, c) := by
            simp [Prod.ext_iff]; intro h1 h2; exact hpair ⟨h1, h2⟩
          simp [orO, hpair, this]
    · intro lab
      rw [hlab lab, isSome_dlookup_nestedSet]
      have : hasLabel ((k, v) :: rest) lab = true ↔
          (lab0 = lab ∨ hasLabel rest lab = true) := by
        simp [hasLabel, hk]
      rw [this]
      tauto

theorem unflatten_ok_of_wf (es : List Entry) (h : wellFormedB es = true) :
    ∃ N, unflatten_consent_sections es = Except.ok N ∧
      (∀ lab c, lookupNested N lab c = lastVal es lab c) ∧
      (∀ lab, (dlookup N lab).isSome = true ↔ hasLabel es lab = true) := by
  obtain ⟨N, out2, hrun, hval, hlab⟩ := unflatten_run_wf es h [] []
  refine ⟨N, ?_, ?_, ?_⟩
  · unfold unflatten_consent_sections
    rw [hrun]
  · intro lab c
    rw [hval lab c]
    simp [lookupNested, dlookup, orO_none_right]
  · intro lab
    rw [hlab lab]
    simp [dlookup]

theorem unflatten_run_error (es : List Entry) (h : wellFormedB es = false) :
    ∃ k v, (k, v) ∈ es ∧ keyLabelCT k = none ∧
      ∀ acc out, (unflatten_run es acc out).1 = Except.error k := by
  induction es with
  | nil => simp [wellFormedB] at h
  | cons e rest ih =>
    obtain ⟨k, v⟩ := e
    rcases ho : keyLabelCT k with _ | pr
    · exact ⟨k, v, List.mem_cons_self _ _, ho, fun acc out => by
        rw [unflatten_run_cons_none k v rest acc out ho]⟩
    · have hrest : wellFormedB rest = false := by
        cases hrb : wellFormedB rest
        · rfl
        · unfold wellFormedB at h hrb
          simp [ho, hrb] at h
      obtain ⟨k1, v1, hm, hn, hrun⟩ := ih hrest
      obtain ⟨a, hs⟩ := (keyLabelCT_some_iff k pr.1 pr.2).1 (by simpa using ho)
      refine ⟨k1, v1, List.mem_cons_of_mem _ hm, hn, fun acc out => ?_⟩
      rw [unflatten_run_cons_some k v a pr.1 pr.2 rest acc out hs]
      exact hrun _ _

/-! ## Round-trip machinery -/

theorem unflatten_run_inner (p l : Str) (hp : dotFree p = true)
    (hl : dotFree l = true) (ts : Inner) :
    ∀ cur pre out,
      (∀ cv ∈ ts, dotFree cv.1 = true) →
      (ts.map Prod.fst).Nodup →
      (∀ cv ∈ ts, dlookup cur cv.1 = none) →
      dlookup pre l = none →
      ∃ out2,
        unflatten_run (ts.map fun cv => (p ++ '.' :: l ++ '.' :: cv.1, cv.2))
          (pre ++ [(l, cur)]) out = (Except.ok (pre ++ [(l, cur ++ ts)]), out2) := by
  induction ts with
  | nil =>
    intro cur pre out _ _ _ _
    exact ⟨out, by simp [unflatten_run]⟩
  | cons cv ts ih =>
    intro cur pre out hdf hnd hfresh hpre
    obtain ⟨c, v⟩ := cv
    simp only [List.map_cons] at hnd
    have hc : dotFree c = true := hdf (c, v) (List.mem_cons_self _ _)
    have hsplit : splitDots (p ++ '.' :: l ++ '.' :: c) = [p, l, c] :=
      splitDots_three p l c hp hl hc
    rw [List.map_cons]
    rw [unflatten_run_cons_some _ v p l c _ _ out hsplit]
    have hstep : nestedSet (pre ++ [(l, cur)]) l c v =
        pre ++ [(l, cur ++ [(c, v)])] := by
      rw [nestedSet_last pre l c v cur hpre,
        dictSet_fresh cur c v (hfresh (c, v) (List.mem_cons_self _ _))]
    rw [hstep]
    have hfresh' : ∀ cv ∈ ts, dlookup (cur ++ [(c, v)]) cv.1 = none := by
      intro cv' hm
      rw [dlookup_append]
      have h1 : dlookup cur cv'.1 = none := hfresh cv' (List.mem_cons_of_mem _ hm)
      have h2 : ¬ c = cv'.1 := by
        intro hceq
        have hmm : cv'.1 ∈ ts.map Prod.fst := List.mem_map_of_mem Prod.fst hm
        rw [← hceq] at hmm
        exact (List.nodup_cons.1 hnd).1 hmm
      simp [h1, dlookup, h2, orO]
    obtain ⟨out2, hrun⟩ := ih (cur ++ [(c, v)]) pre (out ++ [(p, l, c)])
      (fun cv hm => hdf cv (List.mem_cons_of_mem _ hm))
      (List.nodup_cons.1 hnd).2 hfresh' hpre
    refine ⟨out2, ?_⟩
    rw [hrun]
    simp

theorem unflatten_run_append_ok (xs ys : List Entry) (acc a : Nested)
    (out o : List (Str × Str × Str))
    (h : unflatten_run xs acc out = (Except.ok a, o)) :
    unflatten_run (xs ++ ys) acc out = unflatten_run ys a o := by
  rw [unflatten_run_append, h]

theorem unflatten_run_nested (p : Str) (hp : dotFree p = true) (n : Nested) :
    ∀ acc out, NestedWF n → (∀ li ∈ n, dlookup acc li.1 = none) →
      ∃ out2, unflatten_run (nested_to_flat n p) acc out =
        (Except.ok (acc ++ n), out2) := by
  induction n with
  | nil =>
    intro acc out _ _
    exact ⟨out, by simp [nested_to_flat, unflatten_run]⟩
  | cons li rest ih =>
    intro acc out hwf hacc
    obtain ⟨l, inner⟩ := li
    obtain ⟨hnd, hall⟩ := hwf
    obtain ⟨hldf, hne, hind, hidf⟩ := hall (l, inner) (List.mem_cons_self _ _)
    obtain ⟨c0, v0, ts, rfl⟩ : ∃ c0 v0 ts, inner = (c0, v0) :: ts := by
      cases inner with
      | nil => exact absurd rfl hne
      | cons cv ts => exact ⟨cv.1, cv.2, ts, rfl⟩
    have hflat : nested_to_flat (((l, (c0, v0) :: ts)) :: rest) p =
        (((c0, v0) :: ts).map fun cv => (p ++ '.' :: l ++ '.' :: cv.1, cv.2)) ++
          nested_to_flat rest p := by
      simp [nested_to_flat]
    rw [hflat]
    simp only [List.map_cons] at hind ⊢
    have hc0 : dotFree c0 = true := hidf (c0, v0) (List.mem_cons_self _ _)
    have hsplit : splitDots (p ++ '.' :: l ++ '.' :: c0) = [p, l, c0] :=
      splitDots_three p l c0 hp hldf hc0
    have haccl : dlookup acc l = none := hacc (l, (c0, v0) :: ts) (List.mem_cons_self _ _)
    have hinner := unflatten_run_inner p l hp hldf ts [(c0, v0)] acc
      (out ++ [(p, l, c0)])
      (fun cv hm => hidf cv (List.mem_cons_of_mem _ hm))
      (List.nodup_cons.1 hind).2
      (fun cv hm => by
        have h2 : ¬ c0 = cv.1 := by
          intro hceq
          have hmm : cv.1 ∈ ts.map Prod.fst := List.mem_map_of_mem Prod.fst hm
          rw [← hceq] at hmm
          exact (List.nodup_cons.1 hind).1 hmm
        simp [dlookup, h2])
      haccl
    obtain ⟨out2, hrun⟩ := hinner
    have hfirst :
        unflatten_run
          ((p ++ '.' :: l ++ '.' :: c0, v0) ::
            ts.map fun cv => (p ++ '.' :: l ++ '.' :: cv.1, cv.2))
          acc out =
        (Except.ok (acc ++ [(l, (c0, v0) :: ts)]), out2) := by
      rw [unflatten_run_cons_some _ v0 p l c0 _ _ out hsplit,
        nestedSet_fresh acc l c0 v0 haccl, hrun]
      simp
    rw [unflatten_run_append_ok _ _ _ _ _ _ hfirst]
    have hwfrest : NestedWF rest := by
      refine ⟨(List.nodup_cons.1 (by simpa using hnd)).2, ?_⟩
      intro li hm
      exact hall li (List.mem_cons_of_mem _ hm)
    have haccrest : ∀ li ∈ rest, dlookup (acc ++ [(l, (c0, v0) :: ts)]) li.1 = none := by
      intro li hm
      rw [dlookup_append]
      have h1 : dlookup acc li.1 = none := hacc li (List.mem_cons_of_mem _ hm)
      have h2 : ¬ l = li.1 := by
        intro hceq
        have hmm : li.1 ∈ rest.map Prod.fst := List.mem_map_of_mem Prod.fst hm
        rw [← hceq] at hmm
        exact (List.nodup_cons.1 (by simpa using hnd)).1 hmm
      simp [h1, dlookup, h2, orO]
    obtain ⟨out3, hrun3⟩ := ih (acc ++ [(l, (c0, v0) :: ts)]) out2 hwfrest haccrest
    refine ⟨out3, ?_⟩
    rw [hrun3]
    simp

/-! ## The claims -/

/-- C1 (counterexample): the claim as stated fails.  On the well-formed
input `{"a.l.t": "1", "b.l.t": "2"}` both keys derive the pair
`(l, t)`, and the nested result maps it to `"2"`, not to the first
entry's value `"1"`: so it is false that every (label, content_type)
pair derived from an input key maps to the value of that input entry. -/
theorem C1_counterexample :
    wellFormedB [("a.l.t".toList, "1".toList), ("b.l.t".toList, "2".toList)] = true ∧
    ¬ ∀ N, unflatten_consent_sections
          [("a.l.t".toList, "1".toList), ("b.l.t".toList, "2".toList)] = Except.ok N →
        ∀ k v lab c,
          (k, v) ∈ [("a.l.t".toList, "1".toList), ("b.l.t".toList, "2".toList)] →
          keyLabelCT k = some (lab, c) → lookupNested N lab c = some v := by
  refine ⟨by decide, ?_⟩
  intro hforall
  have h := hforall [("l".toList, [("t".toList, "2".toList)])] rfl
    "a.l.t".toList "1".toList "l".toList "t".toList (by decide) (by decide)
  exact absurd h (by decide)

/-- C1 (amended): for every well-formed flat mapping in which no two keys
derive the same (label, content_type) pair, every label occurring in some
input key appears as an outer key of the result, and every
(label, content_type) pair derived from an input key maps to the value of
that input entry.  (Without the distinctness hypothesis the last entry
deriving the pair wins, see C7.) -/
theorem C1_amended_labels_and_values (d : List Entry)
    (hwf : wellFormedB d = true) (hnd : (derivedPairs d).Nodup) :
    ∃ N, unflatten_consent_sections d = Except.ok N ∧
      (∀ k v lab c, (k, v) ∈ d → keyLabelCT k = some (lab, c) →
        (dlookup N lab).isSome = true ∧ lookupNested N lab c = some v) := by
  obtain ⟨N, hok, hval, hlab⟩ := unflatten_ok_of_wf d hwf
  refine ⟨N, hok, ?_⟩
  intro k v lab c hm hk
  constructor
  · rw [hlab lab]
    simp only [hasLabel, List.any_eq_true]
    exact ⟨(k, v), hm, by simp [hk]⟩
  · rw [hval lab c]
    exact lastVal_eq_of_nodup d k v lab c hnd hm hk

/-- Witness for C1 (amended), at a concrete one-entry input. -/
theorem C1_witness :
    ∃ N, unflatten_consent_sections
        [("consent_section.a.text".toList, "x".toList)] = Except.ok N ∧
      (∀ k v lab c, (k, v) ∈ [("consent_section.a.text".toList, "x".toList)] →
        keyLabelCT k = some (lab, c) →
        (dlookup N lab).isSome = true ∧ lookupNested N lab c = some v) :=
  C1_amended_labels_and_values _ (by decide) (by decide)

/-- C2: on the concrete three-entry input of the spec,
`unflatten_consent_sections` returns exactly the claimed nested mapping. -/
theorem C2_concrete_example :
    unflatten_consent_sections
      [("consent_section.welcome.text".toList, "Hello".toList),
       ("consent_section.welcome.more".toList, "Read more".toList),
       ("consent_section.risks.text".toList, "Risk info".toList)] =
    Except.ok
      [("welcome".toList,
         [("text".toList, "Hello".toList), ("more".toList, "Read more".toList)]),
       ("risks".toList, [("text".toList, "Risk info".toList)])] := rfl

/-- C3: two well-formed entries with the same label and distinct content
types end up merged in the same inner mapping under that label; the second
accumulates instead of replacing the first. -/
theorem C3_same_label_merges (d : List Entry) (k1 v1 k2 v2 lab c1 c2 : Str)
    (hwf : wellFormedB d = true)
    (h1 : (k1, v1) ∈ d) (h2 : (k2, v2) ∈ d)
    (hk1 : keyLabelCT k1 = some (lab, c1)) (hk2 : keyLabelCT k2 = some (lab, c2))
    (hcc : c1 ≠ c2) :
    ∃ N inner, unflatten_consent_sections d = Except.ok N ∧
      dlookup N lab = some inner ∧
      (dlookup inner c1).isSome = true ∧ (dlookup inner c2).isSome = true := by
  obtain ⟨N, hok, hval, hlab⟩ := unflatten_ok_of_wf d hwf
  have hv1 : (lookupNested N lab c1).isSome = true := by
    rw [hval lab c1]; exact lastVal_isSome_of_mem d k1 v1 lab c1 h1 hk1
  have hv2 : (lookupNested N lab c2).isSome = true := by
    rw [hval lab c2]; exact lastVal_isSome_of_mem d k2 v2 lab c2 h2 hk2
  rcases ho : dlookup N lab with _ | inner
  · simp [lookupNested, ho] at hv1
  · refine ⟨N, inner, hok, ho, ?_, ?_⟩
    · simpa [lookupNested, ho] using hv1
    · simpa [lookupNested, ho] using hv2

/-- Witness for C3: `sec.text` and `sec.more` are grouped together. -/
theorem C3_witness :
    ∃ N inner,
      unflatten_consent_sections
        [("consent_section.sec.text".toList, "A".toList),
         ("consent_section.sec.more".toList, "B".toList)] = Except.ok N ∧
      dlookup N "sec".toList = some inner ∧
      (dlookup inner "text".toList).isSome = true ∧
      (dlookup inner "more".toList).isSome = true :=
  C3_same_label_merges
    [("consent_section.sec.text".toList, "A".toList),
     ("consent_section.sec.more".toList, "B".toList)]
    "consent_section.sec.text".toList "A".toList
    "consent_section.sec.more".toList "B".toList
    "sec".toList "text".toList "more".toList
    (by decide) (by decide) (by decide) (by decide) (by decide) (by decide)

/-- C4: a flat mapping containing a key that does not split into exactly
three dot-separated segments makes `unflatten_consent_sections` signal an
error naming a malformed key of the input (no partial result is returned),
and on inputs whose keys all split into three segments no error occurs. -/
theorem C4_malformed_rejection (d : List Entry) :
    (wellFormedB d = true → ∃ N, unflatten_consent_sections d = Except.ok N) ∧
    (wellFormedB d = false → ∃ k v, (k, v) ∈ d ∧ keyLabelCT k = none ∧
      unflatten_consent_sections d = Except.error k) := by
  constructor
  · intro h
    obtain ⟨N, hok, _, _⟩ := unflatten_ok_of_wf d h
    exact ⟨N, hok⟩
  · intro h
    obtain ⟨k, v, hm, hn, hrun⟩ := unflatten_run_error d h
    exact ⟨k, v, hm, hn, hrun [] []⟩

/-- Witness for C4: a well-formed input yields a result and the spec's
two-segment example key `bad.key` is rejected. -/
theorem C4_witness :
    (∃ N, unflatten_consent_sections
      [("consent_section.a.text".toList, "1".toList)] = Except.ok N) ∧
    (∃ k v, (k, v) ∈ [("bad.key".toList, "x".toList)] ∧ keyLabelCT k = none ∧
      unflatten_consent_sections [("bad.key".toList, "x".toList)] =
        Except.error k) :=
  ⟨(C4_malformed_rejection _).1 (by decide), (C4_malformed_rejection _).2 (by decide)⟩

/-- C5: round trip.  For every well-formed nested mapping (distinct
dot-free labels, nonempty inner mappings with distinct dot-free content
types) and every dot-free prefix, flattening with `nested_to_flat` and
unflattening with `unflatten_consent_sections` returns the nested mapping
unchanged. -/
theorem C5_round_trip (n : Nested) (p : Str) (hwf : NestedWF n)
    (hp : dotFree p = true) :
    unflatten_consent_sections (nested_to_flat n p) = Except.ok n := by
  obtain ⟨out2, hrun⟩ := unflatten_run_nested p hp n [] [] hwf (fun li hm => rfl)
  unfold unflatten_consent_sections
  rw [hrun]
  simp

/-- Witness for C5 at a concrete nested mapping and prefix. -/
theorem C5_witness :
    NestedWF [("welcome".toList, [("text".toList, "Hello".toList)])] ∧
    unflatten_consent_sections
      (nested_to_flat [("welcome".toList, [("text".toList, "Hello".toList)])]
        "consent_section".toList) =
      Except.ok [("welcome".toList, [("text".toList, "Hello".toList)])] :=
  ⟨by decide, C5_round_trip _ _ (by decide) (by decide)⟩

/-- C6 (counterexample): the claim that the computation has no side effect
beyond constructing the result fails: the loop body contains
`print _, label, content_type`, so a run started with empty stdout leaves
the parsed triple on stdout. -/
theorem C6_counterexample :
    (unflatten_run [("consent_section.a.text".toList, "v".toList)] [] []).2 ≠ [] ∧
    (unflatten_run [("consent_section.a.text".toList, "v".toList)] [] []).2 =
      [("consent_section".toList, "a".toList, "text".toList)] := by
  exact ⟨by decide, rfl⟩

/-- C6 (amended): `unflatten_consent_sections` is deterministic — the
result is a function of the input alone and in particular does not depend
on the prior stdout state — but the run does have one side effect beyond
constructing the result: it appends to stdout the parsed triple of every
entry processed before the first malformed key. -/
theorem C6_amended_determinism (d : List Entry)
    (out1 out2 : List (Str × Str × Str)) :
    (unflatten_run d [] out1).1 = (unflatten_run d [] out2).1 ∧
    (unflatten_run d [] out1).1 = unflatten_consent_sections d ∧
    (unflatten_run d [] out1).2 = out1 ++ printedLog d := by
  refine ⟨unflatten_run_fst_out d [] out1 out2, ?_, ?_⟩
  · rw [unflatten_run_fst_out d [] out1 []]; rfl
  · rw [unflatten_run_out_split d [] out1]

/-- C7: when several well-formed keys derive the same
(label, content_type) pair, the entry processed last determines the stored
value, with no error signalled. -/
theorem C7_last_write_wins (d1 d2 : List Entry) (k v lab c : Str)
    (hwf : wellFormedB (d1 ++ (k, v) :: d2) = true)
    (hk : keyLabelCT k = some (lab, c))
    (hlast : (lab, c) ∉ derivedPairs d2) :
    ∃ N, unflatten_consent_sections (d1 ++ (k, v) :: d2) = Except.ok N ∧
      lookupNested N lab c = some v := by
  obtain ⟨N, hok, hval, _⟩ := unflatten_ok_of_wf _ hwf
  refine ⟨N, hok, ?_⟩
  rw [hval lab c, lastVal_append]
  have hnone : lastVal d2 lab c = none := lastVal_none_of_not_mem d2 lab c hlast
  have h2 : lastVal ((k, v) :: d2) lab c = some v := by
    simp [lastVal, hnone, hk]
  rw [h2]
  rfl

/-- Witness for C7: two keys differing only in their first segment map to
the same pair; the later entry's value `"2"` is stored, with no error. -/
theorem C7_witness :
    ∃ N, unflatten_consent_sections
        ([("first_segment.a.text".toList, "1".toList)] ++
          ("other_segment.a.text".toList, "2".toList) :: []) = Except.ok N ∧
      lookupNested N "a".toList "text".toList = some "2".toList :=
  C7_last_write_wins [("first_segment.a.text".toList, "1".toList)] []
    "other_segment.a.text".toList "2".toList "a".toList "text".toList
    (by decide) (by decide) (by decide)

/-- C8: totality under the input contract.  When every key splits into
exactly three segments, the three-way destructuring never fails: the
function returns a result and the error branch is unreachable. -/
theorem C8_total_on_well_formed (d : List Entry) (hwf : wellFormedB d = true) :
    ∃ N, unflatten_consent_sections d = Except.ok N ∧
      ∀ msg, unflatten_consent_sections d ≠ Except.error msg := by
  obtain ⟨N, hok, _, _⟩ := unflatten_ok_of_wf d hwf
  refine ⟨N, hok, fun msg h => ?_⟩
  rw [hok] at h
  simp at h

/-- Witness for C8 at a concrete well-formed input. -/
theorem C8_witness :
    ∃ N, unflatten_consent_sections
        [("consent_section.b.more".toList, "m".toList)] = Except.ok N ∧
      ∀ msg, unflatten_consent_sections
        [("consent_section.b.more".toList, "m".toList)] ≠ Except.error msg :=
  C8_total_on_well_formed _ (by decide)

/-- C9: only the number of delimiters is checked, never segment
non-emptiness: any key with exactly two dots — even one with empty
segments — is accepted without error and grouped under its (possibly
empty) label and content type. -/
theorem C9_empty_segments_accepted (k v : Str)
    (hcount : k.count '.' = 2)
    (hempty : (splitDots k).any List.isEmpty = true) :
    ∃ a lab c, splitDots k = [a, lab, c] ∧
      unflatten_consent_sections [(k, v)] = Except.ok [(lab, [(c, v)])] := by
  have hlen : (splitDots k).length = 3 := by rw [splitDots_length, hcount]
  obtain ⟨a, lab, c, hs⟩ := list_len3 hlen
  refine ⟨a, lab, c, hs, ?_⟩
  unfold unflatten_consent_sections
  rw [unflatten_run_cons_some k v a lab c [] [] [] hs]
  rfl

/-- Witness for C9: the key `".."` (three empty segments) is accepted and
grouped under the empty label and empty content type. -/
theorem C9_witness :
    "..".toList.count '.' = 2 ∧
    (splitDots "..".toList).any List.isEmpty = true ∧
    ∃ a lab c, splitDots "..".toList = [a, lab, c] ∧
      unflatten_consent_sections [("..".toList, "x".toList)] =
        Except.ok [(lab, [(c, "x".toList)])] :=
  ⟨by decide, by decide,
    C9_empty_segments_accepted "..".toList "x".toList (by decide) (by decide)⟩

/-- C10: the first key segment is discarded without validation, so the
result never depends on it: two flat mappings whose entries agree
pairwise on value, label segment and content-type segment (and whose keys
all have three segments) produce equal results. -/
theorem C10_result_ignores_first_segment (d1 d2 : List Entry)
    (h : List.Forall₂ sameShape d1 d2) :
    unflatten_consent_sections d1 = unflatten_consent_sections d2 := by
  have main : ∀ acc out, (unflatten_run d1 acc out).1 = (unflatten_run d2 acc out).1 := by
    induction h with
    | nil => intro acc out; rfl
    | @cons e1 e2 t1 t2 hr hrest ih =>
      intro acc out
      obtain ⟨k1, v1⟩ := e1
      obtain ⟨k2, v2⟩ := e2
      obtain ⟨hv, hlen1, htail, hlen2⟩ := hr
      obtain ⟨x1, y1, z1, hs1⟩ := list_len3 hlen1
      obtain ⟨x2, y2, z2, hs2⟩ := list_len3 hlen2
      rw [hs1, hs2] at htail
      simp only [List.tail_cons, List.cons.injEq] at htail
      obtain ⟨hy, hz, -⟩ := htail
      simp only at hv
      subst hy; subst hz; subst hv
      rw [unflatten_run_cons_some k1 v1 x1 y1 z1 t1 acc out hs1,
        unflatten_run_cons_some k2 v1 x2 y1 z1 t2 acc out hs2,
        unflatten_run_fst_out t1 _ (out ++ [(x1, y1, z1)]) out,
        unflatten_run_fst_out t2 _ (out ++ [(x2, y1, z1)]) out]
      exact ih (nestedSet acc y1 z1 v1) out
  exact main [] []

/-- Witness for C10: changing only the first segment leaves the result
unchanged. -/
theorem C10_witness :
    unflatten_consent_sections [("consent_section.a.text".toList, "x".toList)] =
      unflatten_consent_sections [("zzzz.a.text".toList, "x".toList)] :=
  C10_result_ignores_first_segment _ _
    (List.Forall₂.cons (by decide) List.Forall₂.nil)

end BeiweConsent
